import Mathlib

set_option maxHeartbeats 1000000
set_option maxRecDepth 4000

/-!
Verification development for the libnop repository's Python sources:
`scripts/aggregate.py` (the header-aggregation build tool) and
`examples/shared.py` (the ctypes example client of the protocol library).

Header contents are modelled as `List Char`, header paths as `String`.
The filesystem seen by the aggregation tool is a finite association list
from paths to contents.
-/

/-! ## Embedding of scripts/aggregate.py -/

/-- Character class of the whitespace escape in the `reInclude` regular
expression (Python `\s`). -/
def isSpaceCh (c : Char) : Bool :=
  c = ' ' || c = '\t' || c = '\n' || c = '\r' || c = '\x0B' || c = '\x0C'

/-- Tests whether `pat` is a leading segment of `s`, character by character. -/
def startsWith : List Char → List Char → Bool
  | [], _ => true
  | _ :: _, [] => false
  | p :: ps, c :: cs => p = c && startsWith ps cs

/-- Removes the literal `lit` from the front of `cs`; `none` when `cs` does not
begin with `lit`. -/
def stripLit : List Char → List Char → Option (List Char)
  | [], cs => some cs
  | _ :: _, [] => none
  | l :: ls, c :: cs => if l = c then stripLit ls cs else none

/-- Attempts to match the tail of the `reInclude` regular expression
`#include\s+<(nop/[^>]+)>` at the head of `cs`.  On success returns
`(group1, group2, rest)` where `group1` is the whole directive text
(`#include` plus whitespace plus `<nop/...>`), `group2` is the bracket body
`nop/...`, and `rest` is the remaining input after the closing `>`.
The regular expression is deterministic here: `\s+` is followed by `<`
(not a whitespace character) and `[^>]+` is followed by `>`, so greedy
matching has no backtracking ambiguity. -/
def matchDirective (cs : List Char) : Option (List Char × List Char × List Char) :=
  match stripLit "#include".data cs with
  | none => none
  | some afterInc =>
    match afterInc.dropWhile isSpaceCh with
    | '<' :: afterLt =>
      if afterInc.takeWhile isSpaceCh = [] then none
      else
        match stripLit "nop/".data afterLt with
        | none => none
        | some afterNop =>
          match afterNop.dropWhile (fun c => c != '>') with
          | '>' :: rest =>
            if afterNop.takeWhile (fun c => c != '>') = [] then none
            else
              some ("#include".data ++ afterInc.takeWhile isSpaceCh ++
                      '<' :: ("nop/".data ++ afterNop.takeWhile (fun c => c != '>') ++ ['>']),
                    "nop/".data ++ afterNop.takeWhile (fun c => c != '>'), rest)
          | _ => none
    | _ => none

/-- Collects, for every position of the current line (the scan stops at the
first newline, mirroring what `.` can match under `re.M`), the result of
matching the include directive there.  Python's greedy `^.*(...)` picks the
rightmost successful position, i.e. the last element of this list. -/
def lineMatches : List Char → List (List Char × List Char × List Char)
  | [] => []
  | c :: cs =>
    if c = '\n' then []
    else
      match matchDirective (c :: cs) with
      | some m => m :: lineMatches cs
      | none => lineMatches cs

/-- Drops input through the first newline: the next position where the `^`
anchor of `reInclude` can match under `re.M`. -/
def nextLine : List Char → List Char
  | [] => []
  | c :: cs => if c = '\n' then cs else nextLine cs

/-- Fuelled worker for `findMatches`.  Every step either consumes the matched
directive (which is nonempty) and the rest of its line, or skips a whole
line, so `cs.length` fuel always suffices; this is proved below
(`findMatchesGo_stable`, `findMatches_eq`). -/
def findMatchesGo : Nat → List Char → List (List Char × List Char)
  | 0, _ => []
  | fuel + 1, cs =>
    match (lineMatches cs).getLast? with
    | some m => (m.1, m.2.1) :: findMatchesGo fuel (nextLine m.2.2)
    | none =>
      match cs with
      | [] => []
      | _ :: _ => findMatchesGo fuel (nextLine cs)

/-- All matches of `reInclude` in `contents`, in scan order, as
`(group1, group2)` pairs: the model of `reInclude.finditer(contents)`. -/
def findMatches (cs : List Char) : List (List Char × List Char) :=
  findMatchesGo cs.length cs

/-- The `includes` list built in `process`: for every match, the pair of the
matched directive text (`match.groups()[0]`) and the header path
`os.path.join('include', match.groups()[1])`.  Group 2 always begins with
`nop/`, so the join is plain concatenation with a slash. -/
def includesOf (contents : List Char) : List (List Char × String) :=
  (findMatches contents).map (fun m => (m.1, String.mk ("include/".data ++ m.2)))

/-- Fuelled worker for `replaceAll`.  Each recursive call consumes at least
one character of `s` (the pattern is required to be nonempty), so
`s.length` fuel always suffices (`replaceAllGo_stable`). -/
def replaceAllGo (pat repl : List Char) : Nat → List Char → List Char
  | _, [] => []
  | 0, s => s
  | fuel + 1, c :: rest =>
    if startsWith pat (c :: rest) && !pat.isEmpty then
      repl ++ replaceAllGo pat repl fuel (List.drop pat.length (c :: rest))
    else
      c :: replaceAllGo pat repl fuel rest

/-- Replaces every leftmost non-overlapping occurrence of the nonempty literal
`pat` in `s` by `repl` verbatim: the occurrence scan of
`re.sub(re.escape(pattern), repl, contents, 0)` (count `0` means replace
all occurrences).  This is only the splicing engine: Python additionally
processes backslash escapes and group references in the replacement string
itself, which is modelled on top of this by `pyReSub`.  For an empty
pattern (never produced by `reInclude`) the input is returned unchanged. -/
def replaceAll (pat repl s : List Char) : List Char :=
  replaceAllGo pat repl s.length s

/-- Fuelled worker for `countOccur`. -/
def countOccurGo (pat : List Char) : Nat → List Char → Nat
  | _, [] => 0
  | 0, _ => 0
  | fuel + 1, c :: rest =>
    if startsWith pat (c :: rest) && !pat.isEmpty then
      1 + countOccurGo pat fuel (List.drop pat.length (c :: rest))
    else
      countOccurGo pat fuel rest

/-- Number of leftmost non-overlapping occurrences of the nonempty literal
`pat` in `s`; used to observe how often a header's contents appear in the
aggregate output. -/
def countOccur (pat s : List Char) : Nat :=
  countOccurGo pat s.length s

/-- A piece of a parsed replacement template (Python `sre_parse`): either a
literal character or a group reference (`MARK`). -/
inductive TItem where
  | lit : Char → TItem
  | mark : Nat → TItem
deriving DecidableEq

/-- The `ESCAPES` table of `sre_parse`: the backslash escapes that Python
converts to control characters inside a replacement string
(`\a \b \f \n \r \t \v \\`); any other non-digit escape is left alone. -/
def escChar (c : Char) : Option Char :=
  if c = 'a' then some (Char.ofNat 7)
  else if c = 'b' then some (Char.ofNat 8)
  else if c = 'f' then some (Char.ofNat 12)
  else if c = 'n' then some '\n'
  else if c = 'r' then some '\r'
  else if c = 't' then some '\t'
  else if c = 'v' then some (Char.ofNat 11)
  else if c = '\\' then some '\\'
  else none

/-- Octal digit test (`OCTDIGITS` of `sre_parse`). -/
def isOctCh (c : Char) : Bool :=
  48 ≤ c.toNat && c.toNat ≤ 55

/-- Scans a `\g<...>` group name up to the closing `>`, the way the
`sre_parse` tokenizer does: a backslash takes the following character with
it (so an escaped `>` joins the name and only a bare `>` terminates);
`none` on an unterminated name or a trailing backslash. -/
def scanGroupName : List Char → Option (List Char × List Char)
  | [] => none
  | c :: rest =>
    if c = '\\' then
      match rest with
      | [] => none
      | c2 :: rest2 =>
        match scanGroupName rest2 with
        | none => none
        | some (name, rem) => some (c :: c2 :: name, rem)
    else if c = '>' then some ([], rest)
    else
      match scanGroupName rest with
      | none => none
      | some (name, rem) => some (c :: name, rem)

/-- Strips the surrounding whitespace Python's `int()` accepts. -/
def pyStripWs (s : List Char) : List Char :=
  ((s.dropWhile isSpaceCh).reverse.dropWhile isSpaceCh).reverse

/-- Value of a nonempty run of decimal digits; `none` otherwise. -/
def digitsVal (ds : List Char) : Option Nat :=
  if ds.isEmpty then none
  else if ds.all Char.isDigit then
    some (ds.foldl (fun a c => a * 10 + (c.toNat - 48)) 0)
  else none

/-- Python's `int(name)` on a group name: surrounding whitespace and a single
leading sign are accepted; `none` models `ValueError`. -/
def pyInt (s : List Char) : Option Int :=
  match pyStripWs s with
  | '-' :: ds => (digitsVal ds).map (fun n => -(n : Int))
  | '+' :: ds => (digitsVal ds).map (fun n => (n : Int))
  | ds => (digitsVal ds).map (fun n => (n : Int))

/-- Handling of `\g` in a replacement template: `\g` must be followed by
`<name>`; an unterminated or empty name, a negative group number, a name
with bad characters, or a (necessarily unknown, since the escaped pattern
defines no groups) symbolic name all raise — modelled as `none`.  A
nonnegative numeric name becomes a group reference. -/
def groupRefEscape (rest1 : List Char) : Option (TItem × List Char) :=
  match rest1 with
  | [] => none
  | c :: rest2 =>
    if c = '<' then
      match scanGroupName rest2 with
      | none => none
      | some (name, rem) =>
        if name = [] then none
        else
          match pyInt name with
          | some k => if k < 0 then none else some (.mark k.toNat, rem)
          | none => none
    else none

/-- Handling of `\0` in a replacement template: up to two further octal
digits are consumed and the escape denotes the character with that octal
code. -/
def zeroEscape (rest1 : List Char) : TItem × List Char :=
  match rest1 with
  | d1 :: rest2 =>
    if isOctCh d1 then
      match rest2 with
      | d2 :: rest3 =>
        if isOctCh d2 then
          (.lit (Char.ofNat (((d1.toNat - 48) * 8 + (d2.toNat - 48)) % 256)), rest3)
        else
          (.lit (Char.ofNat (d1.toNat - 48)), rest2)
      | [] => (.lit (Char.ofNat (d1.toNat - 48)), [])
    else (.lit (Char.ofNat 0), rest1)
  | [] => (.lit (Char.ofNat 0), [])

/-- Handling of `\1`..`\9` (with optional further digits) in a replacement
template, following `sre_parse.parse_template`: a second digit is consumed
when present; when the first digit is octal and a third octal digit
follows, the three digits form an octal character escape — whose
conversion raises (`none`) when the middle digit is `8` or `9`; otherwise
the one or two digits form a numeric group reference. -/
def digitEscape (d1 : Char) (rest1 : List Char) : Option (TItem × List Char) :=
  match rest1 with
  | d2 :: rest2 =>
    if d2.isDigit then
      match rest2 with
      | d3 :: rest3 =>
        if isOctCh d1 && isOctCh d3 then
          if isOctCh d2 then
            some (.lit (Char.ofNat
              ((((d1.toNat - 48) * 8 + (d2.toNat - 48)) * 8 + (d3.toNat - 48)) % 256)),
              rest3)
          else none
        else some (.mark ((d1.toNat - 48) * 10 + (d2.toNat - 48)), rest2)
      | [] => some (.mark ((d1.toNat - 48) * 10 + (d2.toNat - 48)), [])
    else some (.mark (d1.toNat - 48), rest1)
  | [] => some (.mark (d1.toNat - 48), [])

/-- Fuelled worker for `parseTemplate`.  Every iteration consumes at least one
character, so `s.length` fuel always suffices
(`parseTemplateGo_stable`). -/
def parseTemplateGo : Nat → List Char → Option (List TItem)
  | _, [] => some []
  | 0, _ :: _ => none
  | fuel + 1, c :: rest =>
    if c = '\\' then
      match rest with
      | [] => none
      | c1 :: rest1 =>
        if c1 = 'g' then
          match groupRefEscape rest1 with
          | none => none
          | some (it, rem) => (parseTemplateGo fuel rem).map (fun items => it :: items)
        else if c1 = '0' then
          (parseTemplateGo fuel (zeroEscape rest1).2).map
            (fun items => (zeroEscape rest1).1 :: items)
        else if c1.isDigit then
          match digitEscape c1 rest1 with
          | none => none
          | some (it, rem) => (parseTemplateGo fuel rem).map (fun items => it :: items)
        else
          match escChar c1 with
          | some e => (parseTemplateGo fuel rest1).map (fun items => .lit e :: items)
          | none =>
            (parseTemplateGo fuel rest1).map (fun items => .lit '\\' :: .lit c1 :: items)
    else
      (parseTemplateGo fuel rest).map (fun items => .lit c :: items)

/-- Model of `sre_parse.parse_template` for the zero-group pattern that
`re.escape` produces: parses a replacement string into literal characters
and group references, converting the `ESCAPES` table, octal escapes and
`\g<...>` names, keeping unknown escapes verbatim, and failing (`none`,
an exception in Python: bogus escape, missing or unterminated or invalid
group name, or a malformed octal escape) otherwise. -/
def parseTemplate (repl : List Char) : Option (List TItem) :=
  parseTemplateGo repl.length repl

/-- A group reference other than group `0`: with the zero-group pattern
produced by `re.escape`, expanding it raises `invalid group reference`. -/
def hasBadMark (items : List TItem) : Bool :=
  items.any (fun it =>
    match it with
    | .mark (_ + 1) => true
    | _ => false)

/-- Expansion of a parsed, valid template for one match of the escaped
literal pattern: group `0` is the whole matched text, which for a literal
pattern is the pattern itself. -/
def expandItems (pat : List Char) : List TItem → List Char
  | [] => []
  | .lit c :: rest => c :: expandItems pat rest
  | .mark _ :: rest => pat ++ expandItems pat rest

/-- Model of `re.sub(re.escape(pattern), repl, s, 0)` including Python's
handling of the replacement string: when `repl` contains no backslash it
is spliced verbatim at every occurrence; otherwise the replacement
template is parsed first (a parse error raises even when there is no
match), a template whose expansion is invalid (a group reference with no
such group) raises as soon as one match exists, and otherwise every
occurrence is replaced by the template's expansion.  `none` models the
exception propagating out of `re.sub`. -/
def pyReSub (pat repl s : List Char) : Option (List Char) :=
  if repl.contains '\\' then
    match parseTemplate repl with
    | none => none
    | some items =>
      if countOccur pat s = 0 then some s
      else if hasBadMark items then none
      else some (replaceAll pat (expandItems pat items) s)
  else some (replaceAll pat repl s)

/-- Failure modes of the embedded `process`: `fuelOut` is exhaustion of the
termination fuel (shown unreachable below), `missing h` models the
`IOError` Python raises when `file(h, 'r')` does not exist, and `reError`
models the exception `re.sub` raises while handling a replacement
template (for example a backreference such as `\1`, invalid because the
escaped pattern has no groups). -/
inductive PErr where
  | fuelOut : PErr
  | missing : String → PErr
  | reError : PErr
deriving DecidableEq

/-- The substitution loop of `process`:
`for pattern, include in includes: contents = re.sub(re.escape(pattern), process(include), contents, 0)`.
The accumulator carries the evolving `contents` together with the
`included_headers` state threaded through the recursive calls `step`; the
substitution itself is `pyReSub`, whose exceptions abort the run. -/
def substStep (step : List String → String → Except PErr (List Char × List String)) :
    List Char × List String → List (List Char × String) →
    Except PErr (List Char × List String)
  | acc, [] => .ok acc
  | acc, (pat, inc) :: rest =>
    match step acc.2 inc with
    | .error e => .error e
    | .ok (repl, visited') =>
      match pyReSub pat repl acc.1 with
      | none => .error .reError
      | some newContents => substStep step (newContents, visited') rest

/-- Fuelled embedding of `process(header)` from `scripts/aggregate.py`.
State: `visited` is the mutable `included_headers` set (as a list of paths,
most recently visited first); the result carries the processed contents and
the updated visited state.  A header already visited yields the empty
string; otherwise the header is marked visited, its file is read, and every
matched include directive is substituted by the recursively processed
include. -/
def processFuel (fs : List (String × List Char)) :
    Nat → List String → String → Except PErr (List Char × List String)
  | 0, _, _ => .error .fuelOut
  | fuel + 1, visited, header =>
    if header ∈ visited then .ok ([], visited)
    else
      match fs.lookup header with
      | none => .error (.missing header)
      | some contents =>
        substStep (fun v i => processFuel fs fuel v i)
          (contents, header :: visited) (includesOf contents)

/-- The distinct header paths present on the modelled filesystem. -/
def headerKeys (fs : List (String × List Char)) : List String :=
  (fs.map Prod.fst).dedup

/-- Number of distinct headers of `fs` not yet in `visited`: the termination
measure of the recursion in `process`. -/
def numUnvisited (fs : List (String × List Char)) (visited : List String) : Nat :=
  ((headerKeys fs).filter (fun k => decide (k ∉ visited))).length

/-- The embedded `process`, run with enough fuel for its visited-set-guarded
recursion (one more than the number of distinct unvisited headers). -/
def process (fs : List (String × List Char)) (visited : List String) (header : String) :
    Except PErr (List Char × List String) :=
  processFuel fs (numUnvisited fs visited + 1) visited header

/-- The aggregation loop of `main`:
`for h in entries: aggregate_header += process(h)`, threading the shared
`included_headers` state through the successive `process` calls. -/
def aggregateGo (fs : List (String × List Char)) :
    List String → List Char → List String → Except PErr (List Char × List String)
  | visited, acc, [] => .ok (acc, visited)
  | visited, acc, h :: rest =>
    match process fs visited h with
    | .error e => .error e
    | .ok (c, visited') => aggregateGo fs visited' (acc ++ c) rest

/-- The aggregate output `aggregate_header` that `main` writes to
`out/unified.h`, for a given entry-header list. -/
def aggregateHeader (fs : List (String × List Char)) (entries : List String) :
    Except PErr (List Char) :=
  (aggregateGo fs [] [] entries).map Prod.fst

/-! ## Embedding of examples/shared.py -/

/-- The ctypes type expressions appearing in `shared.py`: field types of the
structures and the argument/return types of the loaded ABI entry points. -/
inductive CType where
  | c_float : CType
  | c_size_t : CType
  | c_ssize_t : CType
  | c_void_p : CType
  | ptr_PolyhedronBase : CType
  | vec3 : CType
  | triangle : CType
deriving DecidableEq

/-- Three-component vector of `c_float`, from `class Vec3(Structure)`.
A `c_float` value is modelled by its 32-bit representation, a natural
number below `2 ^ 32`; the example never computes with the stored floats,
it only builds, copies and serializes them. -/
structure Vec3 where
  x : Fin (2 ^ 32)
  y : Fin (2 ^ 32)
  z : Fin (2 ^ 32)
deriving DecidableEq

/-- Triangle of three `Vec3`, from `class Triangle(Structure)`. -/
structure Triangle where
  a : Vec3
  b : Vec3
  c : Vec3
deriving DecidableEq

/-- The `_fields_` tuple of `Vec3`, in declared order. -/
def Vec3Fields : List (String × CType) :=
  [("x", CType.c_float), ("y", CType.c_float), ("z", CType.c_float)]

/-- The `_fields_` tuple of `Triangle`, in declared order. -/
def TriangleFields : List (String × CType) :=
  [("a", CType.vec3), ("b", CType.vec3), ("c", CType.vec3)]

/-- A value of the dynamically sized `PolyhedronType`: the `size` field of
`PolyhedronBase` plus the appended `triangles` array, whose length is the
capacity fixed at construction time. -/
structure Polyhedron where
  size : Nat
  triangles : List Triangle
deriving DecidableEq

/-- The zero-initialized `Vec3`, as ctypes default-initializes array slots. -/
def zeroVec3 : Vec3 := ⟨0, 0, 0⟩

/-- The zero-initialized `Triangle`. -/
def zeroTriangle : Triangle := ⟨zeroVec3, zeroVec3, zeroVec3⟩

/-- The `Polyhedron(elements, reserve)` factory of `shared.py`:
`reserve` defaults to `len(elements)`; an array type of length `reserve` is
created and initialized with `elements` (ctypes zero-fills the remaining
slots and raises `ValueError` when there are more initializers than
slots, modelled by `none`); the returned instance is
`PolyhedronType(reserve, ArrayType(*elements))`, so `size` is set to
`reserve`, not to `len(elements)`. -/
def mkPolyhedron (elements : List Triangle) (reserve : Option Nat) : Option Polyhedron :=
  let r := reserve.getD elements.length
  if elements.length ≤ r then
    some ⟨r, elements ++ List.replicate (r - elements.length) zeroTriangle⟩
  else
    none

/-- The element run a `Polyhedron` reports: `__str__` iterates
`self.triangles[i] for i in range(self.size)`. -/
def polyElements (p : Polyhedron) : List Triangle :=
  (List.range p.size).map (fun i => p.triangles.getD i zeroTriangle)

/-- A function pointer loaded by `LoadProtocolLibrary`: exported name,
`argtypes`, and `restype`. -/
structure Binding where
  name : String
  argtypes : List CType
  restype : CType
deriving DecidableEq

/-- The `GetSerializedPolyhedron` binding set up by `LoadProtocolLibrary`. -/
def getSerializedPolyhedronBinding : Binding :=
  ⟨"GetSerializedPolyhedron", [CType.c_void_p, CType.c_size_t], CType.c_ssize_t⟩

/-- The `SerializePolyhedron` binding set up by `LoadProtocolLibrary`. -/
def serializePolyhedronBinding : Binding :=
  ⟨"SerializePolyhedron", [CType.ptr_PolyhedronBase, CType.c_void_p, CType.c_size_t],
   CType.c_ssize_t⟩

/-- The `DeserializePolyhedron` binding set up by `LoadProtocolLibrary`. -/
def deserializePolyhedronBinding : Binding :=
  ⟨"DeserializePolyhedron", [CType.ptr_PolyhedronBase, CType.c_void_p, CType.c_size_t],
   CType.c_ssize_t⟩

/-- The three ABI entry points loaded by `LoadProtocolLibrary`. -/
def protocolBindings : List Binding :=
  [getSerializedPolyhedronBinding, serializePolyhedronBinding,
   deserializePolyhedronBinding]

/-- The client's success test from `main`: every returned count is treated as
success exactly when `count >= 0`. -/
def clientSuccess (count : Int) : Bool :=
  decide (0 ≤ count)

/-- The error code the client prints on failure: `print 'Error:', -count`. -/
def clientErrorCode (count : Int) : Int :=
  -count

/-- Modelled from the spec: the error taxonomy of the protocol core
(section 7); the core implementation behind `out/shared_protocol.so` is not
part of the repository sources here. -/
inductive NopError where
  | outOfSpace : NopError
  | capacityExceeded : NopError
  | malformedData : NopError
deriving DecidableEq

/-- Modelled from the spec: fixed-width little-endian encoding of an unsigned
integer into `width` bytes (section 6, scalars have a fixed width and a
fixed byte order). -/
def encodeNatLE : Nat → Nat → List Nat
  | 0, _ => []
  | width + 1, v => v % 256 :: encodeNatLE width (v / 256)

/-- Modelled from the spec: little-endian decoding of a byte list back to an
unsigned integer. -/
def decodeNatLE : List Nat → Nat
  | [] => 0
  | b :: rest => b % 256 + 256 * decodeNatLE rest

/-- Modelled from the spec: reads a `width`-byte little-endian integer from
the front of a byte stream, failing when fewer than `width` bytes remain
(the Primitive Codec's `OutOfSpace` check, section 4.2). -/
def readNatLE (width : Nat) (s : List Nat) : Option (Nat × List Nat) :=
  if width ≤ s.length then some (decodeNatLE (s.take width), s.drop width) else none

/-- Modelled from the spec: encoding of one 32-bit scalar. -/
def encodeScalar (v : Fin (2 ^ 32)) : List Nat :=
  encodeNatLE 4 v.val

/-- Modelled from the spec: decoding of one 32-bit scalar. -/
def readScalar (s : List Nat) : Option (Fin (2 ^ 32) × List Nat) :=
  match readNatLE 4 s with
  | none => none
  | some (v, rest) => some (⟨v % 2 ^ 32, Nat.mod_lt v (by norm_num)⟩, rest)

/-- Modelled from the spec: a Fixed Composite is encoded as the concatenation
of its fields' encodings in declared field order (section 6); for `Vec3`
that order is `x`, `y`, `z`. -/
def encodeVec3 (v : Vec3) : List Nat :=
  encodeScalar v.x ++ encodeScalar v.y ++ encodeScalar v.z

/-- Modelled from the spec: field-by-field decoding of a `Vec3` in declared
order. -/
def readVec3 (s : List Nat) : Option (Vec3 × List Nat) :=
  match readScalar s with
  | none => none
  | some (x, s1) =>
    match readScalar s1 with
    | none => none
    | some (y, s2) =>
      match readScalar s2 with
      | none => none
      | some (z, s3) => some (⟨x, y, z⟩, s3)

/-- Modelled from the spec: encoding of a `Triangle` in declared field order
`a`, `b`, `c`. -/
def encodeTriangle (t : Triangle) : List Nat :=
  encodeVec3 t.a ++ encodeVec3 t.b ++ encodeVec3 t.c

/-- Modelled from the spec: decoding of a `Triangle` in declared field
order. -/
def readTriangle (s : List Nat) : Option (Triangle × List Nat) :=
  match readVec3 s with
  | none => none
  | some (a, s1) =>
    match readVec3 s1 with
    | none => none
    | some (b, s2) =>
      match readVec3 s2 with
      | none => none
      | some (c, s3) => some (⟨a, b, c⟩, s3)

/-- Modelled from the spec: concatenated encodings of a run of elements. -/
def encodeTriangles : List Triangle → List Nat
  | [] => []
  | t :: ts => encodeTriangle t ++ encodeTriangles ts

/-- Modelled from the spec: decoding of exactly `n` consecutive elements. -/
def readTriangles : Nat → List Nat → Option (List Triangle × List Nat)
  | 0, s => some ([], s)
  | n + 1, s =>
    match readTriangle s with
    | none => none
    | some (t, s1) =>
      match readTriangles n s1 with
      | none => none
      | some (ts, s2) => some (t :: ts, s2)

/-- Modelled from the spec: the Dynamic Composite wire format
`[count][element_0]...[element_{count-1}]` (section 6).  The count is the
`size` field (a `size_t`, eight bytes here) and exactly `count` elements
follow; the capacity of the backing storage is never serialized. -/
def polyPayload (p : Polyhedron) : List Nat :=
  encodeNatLE 8 p.size ++ encodeTriangles (p.triangles.take p.size)

/-- Modelled from the spec: `SerializePolyhedron(value, buffer, length)`
behind the ABI (sections 4.4 and 4.5) — encode the count then the `count`
elements, failing with `OutOfSpace` when the payload does not fit the
destination buffer.  The returned byte count of the ABI is the length of
the produced byte list. -/
def serializePolyhedron (p : Polyhedron) (bufLen : Nat) : Except NopError (List Nat) :=
  if (polyPayload p).length ≤ bufLen then .ok (polyPayload p) else .error .outOfSpace

/-- Modelled from the spec: `DeserializePolyhedron(destination, buffer, length)`
behind the ABI (section 4.4) — decode the count, fail with
`CapacityExceeded` when it exceeds the destination's reserved capacity,
decode exactly `count` elements into the front of the destination's
storage, set the destination's logical count, and report the number of
bytes consumed. -/
def deserializePolyhedron (dest : Polyhedron) (buf : List Nat) :
    Except NopError (Polyhedron × Nat) :=
  match readNatLE 8 buf with
  | none => .error .outOfSpace
  | some (n, rest) =>
    if n ≤ dest.triangles.length then
      match readTriangles n rest with
      | none => .error .outOfSpace
      | some (ts, rest2) =>
        .ok (⟨n, ts ++ dest.triangles.drop n⟩, buf.length - rest2.length)
    else
      .error .capacityExceeded

/-! ## Concrete inputs used by witnesses and counterexamples -/

/-- A filesystem whose top header contains the identical include directive on
two lines. -/
def fsDup : List (String × List Char) :=
  [("include/nop/top.h", "#include <nop/b.h>\n#include <nop/b.h>\n".data),
   ("include/nop/b.h", "BODY\n".data)]

/-- A filesystem with an include cycle: `a.h` includes `b.h` and `b.h`
includes `a.h`. -/
def fsCyc : List (String × List Char) :=
  [("include/nop/a.h", "#include <nop/b.h>\n".data),
   ("include/nop/b.h", "#include <nop/a.h>\n".data)]

/-- A two-file chain: `a.h` includes `b.h`, which has no further includes. -/
def fsChain : List (String × List Char) :=
  [("include/nop/a.h", "A1\n#include <nop/b.h>\nA2\n".data),
   ("include/nop/b.h", "B1\n".data)]

/-- A header whose only include directive is not project-local. -/
def fsStd : List (String × List Char) :=
  [("include/nop/std.h", "#include <vector>\nint x;\n".data)]

/-- A sample triangle with distinct scalar representations. -/
def triEx : Triangle :=
  ⟨⟨1, 2, 3⟩, ⟨4, 5, 6⟩, ⟨7, 8, 9⟩⟩

/-- A filesystem whose included header contains the two-character sequence
backslash-`n` (as in a C string literal), which `re.sub` converts to a
newline in the replacement. -/
def fsTmpl : List (String × List Char) :=
  [("include/nop/top.h", "#include <nop/esc.h>\n".data),
   ("include/nop/esc.h", "X\\nY\n".data)]

/-- A filesystem whose included header contains a `\1` backreference, on
which `re.sub` raises `invalid group reference` (the escaped pattern has
no groups). -/
def fsBad : List (String × List Char) :=
  [("include/nop/top2.h", "#include <nop/ref.h>\n".data),
   ("include/nop/ref.h", "use \\1 now\n".data)]

/-- A filesystem where a replacement boundary creates a new occurrence of a
later matched directive: line 1 of the top header holds the `a.h`
directive immediately followed by the unmatched text `<nop/b.h> tail`,
`a.h`'s contents are the nine characters `#include` plus a space, and
line 2 holds the `b.h` directive. -/
def fsFrame : List (String × List Char) :=
  [("include/nop/top3.h", "#include <nop/a.h><nop/b.h> tail\n#include <nop/b.h>\n".data),
   ("include/nop/a.h", "#include ".data),
   ("include/nop/b.h", "BB\n".data)]

/-- Shape of a project-local include directive as captured by the groups of
`reInclude`: group 1 is `#include`, then at least one whitespace character,
then `<nop/...>` with a nonempty bracket body free of `>`; group 2 is the
bracket body starting with `nop/`. -/
def directiveShape (g1 g2 : List Char) : Prop :=
  ∃ ws body : List Char,
    ws ≠ [] ∧ (∀ c ∈ ws, isSpaceCh c = true) ∧
    body ≠ [] ∧ (∀ c ∈ body, c ≠ '>') ∧
    g1 = "#include".data ++ ws ++ '<' :: ("nop/".data ++ body ++ ['>']) ∧
    g2 = "nop/".data ++ body

/-! ## Lemmas: adequacy of the fuelled string scanners -/

theorem length_dropWhile_le' (p : Char → Bool) (l : List Char) :
    (l.dropWhile p).length ≤ l.length := by
  induction l with
  | nil => simp [List.dropWhile]
  | cons c cs ih =>
    simp only [List.dropWhile]
    split
    · simpa using Nat.le_succ_of_le ih
    · simp

theorem stripLit_some_length :
    ∀ (l cs r : List Char), stripLit l cs = some r → r.length + l.length = cs.length := by
  intro l
  induction l with
  | nil => intro cs r h; simp [stripLit] at h; simp [h]
  | cons a as ih =>
    intro cs r h
    cases cs with
    | nil => simp [stripLit] at h
    | cons c cs' =>
      simp only [stripLit] at h
      split at h
      · have := ih cs' r h
        simp only [List.length_cons]
        omega
      · exact absurd h (by simp)

theorem matchDirective_rest_lt {cs : List Char} {m : List Char × List Char × List Char}
    (h : matchDirective cs = some m) : m.2.2.length < cs.length := by
  unfold matchDirective at h
  split at h
  · exact absurd h (by simp)
  next afterInc h1 =>
    split at h
    next afterLt h2 =>
      split at h
      · exact absurd h (by simp)
      · split at h
        · exact absurd h (by simp)
        next afterNop h3 =>
          split at h
          next rest h4 =>
            split at h
            · exact absurd h (by simp)
            · have hm : m.2.2 = rest := by
                cases h
                rfl
              have e1 : afterInc.length + 8 = cs.length := by
                simpa using stripLit_some_length _ _ _ h1
              have e2 : afterLt.length + 1 ≤ afterInc.length := by
                have hw := length_dropWhile_le' isSpaceCh afterInc
                rw [h2] at hw
                simpa using hw
              have e3 : afterNop.length + 4 = afterLt.length := by
                simpa using stripLit_some_length _ _ _ h3
              have e4 : rest.length + 1 ≤ afterNop.length := by
                have hw := length_dropWhile_le' (fun c => c != '>') afterNop
                rw [h4] at hw
                simpa using hw
              rw [hm]
              omega
          next => exact absurd h (by simp)
    next => exact absurd h (by simp)

theorem lineMatches_rest_lt :
    ∀ (cs : List Char) (m : List Char × List Char × List Char),
      m ∈ lineMatches cs → m.2.2.length < cs.length := by
  intro cs
  induction cs with
  | nil => intro m h; simp [lineMatches] at h
  | cons c cs' ih =>
    intro m h
    simp only [lineMatches] at h
    split at h
    · simp at h
    · split at h
      next m0 hm0 =>
        rcases List.mem_cons.mp h with h' | h'
        · subst h'; exact matchDirective_rest_lt hm0
        · exact Nat.lt_trans (ih m h') (by simp)
      next =>
        exact Nat.lt_trans (ih m h) (by simp)

theorem nextLine_length_le : ∀ (cs : List Char), (nextLine cs).length ≤ cs.length := by
  intro cs
  induction cs with
  | nil => simp [nextLine]
  | cons c cs' ih =>
    simp only [nextLine]
    split
    · simp
    · exact Nat.le_succ_of_le ih

theorem findMatchesGo_succ (fuel : Nat) (cs : List Char) :
    findMatchesGo (fuel + 1) cs =
      match (lineMatches cs).getLast? with
      | some m => (m.1, m.2.1) :: findMatchesGo fuel (nextLine m.2.2)
      | none =>
        match cs with
        | [] => []
        | _ :: _ => findMatchesGo fuel (nextLine cs) := rfl

theorem nextLine_cons_length_le {c : Char} {cs' : List Char} {n : Nat}
    (h : (c :: cs').length ≤ n + 1) : (nextLine (c :: cs')).length ≤ n := by
  simp only [nextLine]
  split
  · simp only [List.length_cons] at h
    omega
  · refine Nat.le_trans (nextLine_length_le cs') ?_
    simp only [List.length_cons] at h
    omega

theorem findMatchesGo_stable :
    ∀ (fuel : Nat) (cs : List Char), cs.length ≤ fuel →
      findMatchesGo fuel cs = findMatchesGo (fuel + 1) cs := by
  intro fuel
  induction fuel with
  | zero =>
    intro cs h
    have hnil : cs = [] := List.length_eq_zero.mp (Nat.le_zero.mp h)
    subst hnil
    simp [findMatchesGo, lineMatches]
  | succ n ih =>
    intro cs h
    rw [findMatchesGo_succ n cs, findMatchesGo_succ (n + 1) cs]
    cases hm : (lineMatches cs).getLast? with
    | some m =>
      have hmem : m ∈ lineMatches cs := List.mem_of_mem_getLast? (by simp [hm])
      have h1 : m.2.2.length < cs.length := lineMatches_rest_lt cs m hmem
      have h2 : (nextLine m.2.2).length ≤ n :=
        Nat.le_trans (nextLine_length_le _) (by omega)
      dsimp only
      rw [ih _ h2]
    | none =>
      cases cs with
      | nil => rfl
      | cons c cs' =>
        dsimp only
        rw [ih _ (nextLine_cons_length_le h)]

theorem findMatchesGo_of_le :
    ∀ (k fuel : Nat) (cs : List Char), cs.length ≤ fuel →
      findMatchesGo (fuel + k) cs = findMatchesGo fuel cs := by
  intro k
  induction k with
  | zero => intro fuel cs h; rfl
  | succ n ih =>
    intro fuel cs h
    have : fuel + (n + 1) = (fuel + n) + 1 := by omega
    rw [this, ← findMatchesGo_stable (fuel + n) cs (by omega), ih fuel cs h]

theorem findMatchesGo_eq_findMatches {fuel : Nat} {cs : List Char}
    (h : cs.length ≤ fuel) : findMatchesGo fuel cs = findMatches cs := by
  have e : fuel = cs.length + (fuel - cs.length) := by omega
  rw [findMatches, e, findMatchesGo_of_le _ _ _ (Nat.le_refl _)]

/-- The fuelled `findMatches` satisfies the intended recursion of the scan of
`reInclude.finditer`: take the last (rightmost, greedy) match of the
current line, then continue after the end of that match's line; a line
without a match is skipped whole. -/
theorem findMatches_eq (cs : List Char) :
    findMatches cs =
      match (lineMatches cs).getLast? with
      | some m => (m.1, m.2.1) :: findMatches (nextLine m.2.2)
      | none =>
        match cs with
        | [] => []
        | _ :: _ => findMatches (nextLine cs) := by
  rw [findMatches]
  cases cs with
  | nil => simp [findMatchesGo, lineMatches]
  | cons c cs' =>
    rw [show (c :: cs').length = cs'.length + 1 from rfl, findMatchesGo_succ]
    cases hm : (lineMatches (c :: cs')).getLast? with
    | some m =>
      have hmem : m ∈ lineMatches (c :: cs') := List.mem_of_mem_getLast? (by simp [hm])
      have h1 : m.2.2.length < (c :: cs').length := lineMatches_rest_lt _ m hmem
      have h2 : (nextLine m.2.2).length ≤ cs'.length := by
        refine Nat.le_trans (nextLine_length_le _) ?_
        simp only [List.length_cons] at h1
        omega
      dsimp only
      rw [findMatchesGo_eq_findMatches h2]
    | none =>
      dsimp only
      rw [findMatchesGo_eq_findMatches (nextLine_cons_length_le (Nat.le_refl _))]

theorem replaceAllGo_stable (pat repl : List Char) :
    ∀ (fuel : Nat) (s : List Char), s.length ≤ fuel →
      replaceAllGo pat repl fuel s = replaceAllGo pat repl (fuel + 1) s := by
  intro fuel
  induction fuel with
  | zero =>
    intro s h
    have hnil : s = [] := List.length_eq_zero.mp (Nat.le_zero.mp h)
    subst hnil
    rfl
  | succ n ih =>
    intro s h
    cases s with
    | nil => rfl
    | cons c rest =>
      show replaceAllGo pat repl (n + 1) (c :: rest) =
        replaceAllGo pat repl (n + 1 + 1) (c :: rest)
      simp only [replaceAllGo]
      split
      next hcond =>
        have hne : pat.isEmpty = false := by
          have hb := (Bool.and_eq_true _ _).mp hcond
          simpa using hb.2
        have hlen : 1 ≤ pat.length := by
          cases pat with
          | nil => simp [List.isEmpty] at hne
          | cons p ps => simp
        have hd : (List.drop pat.length (c :: rest)).length ≤ n := by
          simp only [List.length_drop, List.length_cons]
          simp only [List.length_cons] at h
          omega
        rw [ih _ hd]
      next =>
        have hr : rest.length ≤ n := by
          simp only [List.length_cons] at h
          omega
        rw [ih _ hr]

theorem replaceAllGo_of_le (pat repl : List Char) :
    ∀ (k fuel : Nat) (s : List Char), s.length ≤ fuel →
      replaceAllGo pat repl (fuel + k) s = replaceAllGo pat repl fuel s := by
  intro k
  induction k with
  | zero => intro fuel s h; rfl
  | succ m ih =>
    intro fuel s h
    have e : fuel + (m + 1) = (fuel + m) + 1 := by omega
    rw [e, ← replaceAllGo_stable pat repl (fuel + m) s (by omega), ih fuel s h]

theorem replaceAllGo_eq_replaceAll {pat repl : List Char} {fuel : Nat} {s : List Char}
    (h : s.length ≤ fuel) : replaceAllGo pat repl fuel s = replaceAll pat repl s := by
  have e : fuel = s.length + (fuel - s.length) := by omega
  rw [replaceAll, e, replaceAllGo_of_le _ _ _ _ _ (Nat.le_refl _)]

/-- The fuelled `replaceAll` satisfies the intended recursion: scan left to
right and replace each (leftmost, non-overlapping) occurrence of the
nonempty pattern. -/
theorem replaceAll_eq (pat repl : List Char) (hne : pat ≠ []) (s : List Char) :
    replaceAll pat repl s =
      match s with
      | [] => []
      | c :: rest =>
        if startsWith pat (c :: rest) then
          repl ++ replaceAll pat repl (List.drop pat.length (c :: rest))
        else
          c :: replaceAll pat repl rest := by
  cases s with
  | nil => rfl
  | cons c rest =>
    have hlen : 1 ≤ pat.length := by
      cases pat with
      | nil => exact absurd rfl hne
      | cons p ps => simp
    have hemp : pat.isEmpty = false := by
      cases pat with
      | nil => exact absurd rfl hne
      | cons p ps => rfl
    show replaceAllGo pat repl (rest.length + 1) (c :: rest) = _
    simp only [replaceAllGo, hemp, Bool.not_false, Bool.and_true]
    split
    next hcond =>
      rw [replaceAllGo_eq_replaceAll (by simp only [List.length_drop, List.length_cons]; omega)]
    next =>
      rw [replaceAllGo_eq_replaceAll (Nat.le_refl _)]


/-! ## Lemmas: adequacy of the fuelled template parser -/

theorem scanGroupName_length :
    ∀ (n : Nat) (cs : List Char), cs.length ≤ n → ∀ (name rem : List Char),
      scanGroupName cs = some (name, rem) → rem.length < cs.length := by
  intro n
  induction n with
  | zero =>
    intro cs hcs name rem h
    have hnil : cs = [] := List.length_eq_zero.mp (Nat.le_zero.mp hcs)
    subst hnil
    simp [scanGroupName] at h
  | succ n ih =>
    intro cs hcs name rem h
    cases cs with
    | nil => simp [scanGroupName] at h
    | cons c rest =>
      cases rest with
      | nil =>
        simp only [scanGroupName] at h
        split at h
        · exact absurd h (by simp)
        · split at h
          · cases h
            simp
          · exact absurd h (by simp)
      | cons c2 rest2 =>
        simp only [scanGroupName] at h
        split at h
        · cases hrec : scanGroupName rest2 with
          | none => rw [hrec] at h; simp at h
          | some p =>
            obtain ⟨nm, rm⟩ := p
            rw [hrec] at h
            dsimp only at h
            have hlen := ih rest2 (by simp only [List.length_cons] at hcs; omega) nm rm hrec
            cases h
            simp only [List.length_cons]
            omega
        · split at h
          · cases h
            simp
          · cases hrec : scanGroupName (c2 :: rest2) with
            | none => rw [hrec] at h; simp at h
            | some p =>
              obtain ⟨nm, rm⟩ := p
              rw [hrec] at h
              dsimp only at h
              have hlen := ih (c2 :: rest2)
                (by simp only [List.length_cons] at hcs ⊢; omega) nm rm hrec
              cases h
              simp only [List.length_cons] at hlen ⊢
              omega

theorem groupRefEscape_length (rest1 : List Char) (it : TItem) (rem : List Char)
    (h : groupRefEscape rest1 = some (it, rem)) : rem.length ≤ rest1.length := by
  cases rest1 with
  | nil => simp [groupRefEscape] at h
  | cons c rest2 =>
    simp only [groupRefEscape] at h
    split at h
    · cases hscan : scanGroupName rest2 with
      | none => rw [hscan] at h; simp at h
      | some p =>
        obtain ⟨nm, rm⟩ := p
        rw [hscan] at h
        dsimp only at h
        have hlen := scanGroupName_length rest2.length rest2 (Nat.le_refl _) nm rm hscan
        split at h
        · exact absurd h (by simp)
        · cases hint : pyInt nm with
          | none => rw [hint] at h; simp at h
          | some k =>
            rw [hint] at h
            dsimp only at h
            split at h
            · exact absurd h (by simp)
            · cases h
              simp only [List.length_cons]
              omega
    · exact absurd h (by simp)

theorem zeroEscape_length (rest1 : List Char) :
    (zeroEscape rest1).2.length ≤ rest1.length := by
  cases rest1 with
  | nil => simp [zeroEscape]
  | cons d1 rest2 =>
    simp only [zeroEscape]
    split
    · cases rest2 with
      | nil => simp
      | cons d2 rest3 =>
        dsimp only
        split
        · dsimp only
          simp only [List.length_cons]
          omega
        · dsimp only
          simp only [List.length_cons]
          omega
    · dsimp only
      exact Nat.le_refl _

theorem digitEscape_length (d1 : Char) (rest1 : List Char) (it : TItem) (rem : List Char)
    (h : digitEscape d1 rest1 = some (it, rem)) : rem.length ≤ rest1.length := by
  cases rest1 with
  | nil =>
    simp only [digitEscape] at h
    cases h
    simp
  | cons d2 rest2 =>
    simp only [digitEscape] at h
    split at h
    · cases rest2 with
      | nil =>
        dsimp only at h
        cases h
        simp
      | cons d3 rest3 =>
        dsimp only at h
        split at h
        · split at h
          · cases h
            simp only [List.length_cons]
            omega
          · exact absurd h (by simp)
        · cases h
          simp only [List.length_cons]
          omega
    · cases h
      exact Nat.le_refl _

theorem parseTemplateGo_stable :
    ∀ (fuel : Nat) (s : List Char), s.length ≤ fuel →
      parseTemplateGo fuel s = parseTemplateGo (fuel + 1) s := by
  intro fuel
  induction fuel with
  | zero =>
    intro s h
    have hnil : s = [] := List.length_eq_zero.mp (Nat.le_zero.mp h)
    subst hnil
    rfl
  | succ n ih =>
    intro s h
    cases s with
    | nil => rfl
    | cons c rest =>
      cases rest with
      | nil =>
        show parseTemplateGo (n + 1) [c] = parseTemplateGo (n + 1 + 1) [c]
        simp only [parseTemplateGo]
      | cons c1 rest1 =>
        have hr1 : rest1.length ≤ n := by
          simp only [List.length_cons] at h
          omega
        show parseTemplateGo (n + 1) (c :: c1 :: rest1) =
          parseTemplateGo (n + 1 + 1) (c :: c1 :: rest1)
        simp only [parseTemplateGo]
        split
        · split
          · cases hg : groupRefEscape rest1 with
            | none => rfl
            | some p =>
              obtain ⟨it, rem⟩ := p
              dsimp only
              have hrem : rem.length ≤ n :=
                Nat.le_trans (groupRefEscape_length rest1 it rem hg) hr1
              rw [ih _ hrem]
          · split
            · have hz : (zeroEscape rest1).2.length ≤ n :=
                Nat.le_trans (zeroEscape_length rest1) hr1
              rw [ih _ hz]
            · split
              · cases hd : digitEscape c1 rest1 with
                | none => rfl
                | some p =>
                  obtain ⟨it, rem⟩ := p
                  dsimp only
                  have hrem : rem.length ≤ n :=
                    Nat.le_trans (digitEscape_length c1 rest1 it rem hd) hr1
                  rw [ih _ hrem]
              · cases he : escChar c1 with
                | none =>
                  dsimp only
                  rw [ih _ hr1]
                | some e =>
                  dsimp only
                  rw [ih _ hr1]
        · have hr : (c1 :: rest1).length ≤ n := by
            simp only [List.length_cons] at h ⊢
            omega
          rw [ih _ hr]
          rfl

theorem parseTemplateGo_of_le :
    ∀ (k fuel : Nat) (s : List Char), s.length ≤ fuel →
      parseTemplateGo (fuel + k) s = parseTemplateGo fuel s := by
  intro k
  induction k with
  | zero => intro fuel s h; rfl
  | succ m ih =>
    intro fuel s h
    have e : fuel + (m + 1) = (fuel + m) + 1 := by omega
    rw [e, ← parseTemplateGo_stable (fuel + m) s (by omega), ih fuel s h]

theorem parseTemplateGo_eq_parseTemplate {fuel : Nat} {s : List Char}
    (h : s.length ≤ fuel) : parseTemplateGo fuel s = parseTemplate s := by
  have e : fuel = s.length + (fuel - s.length) := by omega
  rw [parseTemplate, e, parseTemplateGo_of_le _ _ _ (Nat.le_refl _)]

/-! ## Lemmas: the visited-set recursion of process -/

theorem lookup_mem_keys :
    ∀ (fs : List (String × List Char)) (h : String) (c : List Char),
      fs.lookup h = some c → h ∈ headerKeys fs := by
  intro fs
  induction fs with
  | nil => intro h c hl; simp [List.lookup] at hl
  | cons e fs' ih =>
    intro h c hl
    obtain ⟨k, cv⟩ := e
    simp only [List.lookup] at hl
    split at hl
    next heq =>
      have : h = k := by simpa using heq
      subst this
      simp [headerKeys, List.mem_dedup]
    next =>
      have := ih h c hl
      simp only [headerKeys, List.mem_dedup] at this ⊢
      simp [this]

theorem filter_length_mono (p q : String → Bool)
    (hpq : ∀ a, p a = true → q a = true) :
    ∀ l : List String, (l.filter p).length ≤ (l.filter q).length := by
  intro l
  induction l with
  | nil => simp
  | cons a l' ih =>
    simp only [List.filter]
    cases hp : p a with
    | true =>
      rw [hpq a hp]
      simpa using ih
    | false =>
      cases hq : q a with
      | true => exact Nat.le_succ_of_le ih
      | false => exact ih

theorem filter_length_strict (p q : String → Bool) (a : String)
    (hpq : ∀ x, p x = true → q x = true) (hpa : p a = false) (hqa : q a = true) :
    ∀ l : List String, a ∈ l → (l.filter p).length < (l.filter q).length := by
  intro l
  induction l with
  | nil => intro h; simp at h
  | cons b l' ih =>
    intro hmem
    simp only [List.filter]
    rcases List.mem_cons.mp hmem with hb | hb
    · subst hb
      rw [hpa, hqa]
      have := filter_length_mono p q hpq l'
      simpa using Nat.lt_succ_of_le this
    · cases hp : p b with
      | true =>
        rw [hpq b hp]
        simpa using ih hb
      | false =>
        cases hq : q b with
        | true => exact Nat.lt_succ_of_lt (ih hb)
        | false => exact ih hb

theorem numUnvisited_mono {fs : List (String × List Char)} {v v' : List String}
    (hsub : v ⊆ v') : numUnvisited fs v' ≤ numUnvisited fs v := by
  apply filter_length_mono
  intro a ha
  simp only [decide_eq_true_eq] at ha ⊢
  intro hav
  exact ha (hsub hav)

theorem numUnvisited_strict {fs : List (String × List Char)} {v : List String} {h : String}
    (hk : h ∈ headerKeys fs) (hv : h ∉ v) :
    numUnvisited fs (h :: v) < numUnvisited fs v := by
  apply filter_length_strict _ _ h _ _ _ _ hk
  · intro x hx
    simp only [decide_eq_true_eq] at hx ⊢
    intro hxv
    exact hx (List.mem_cons_of_mem _ hxv)
  · simp
  · simpa using hv

theorem substStep_subset
    (step : List String → String → Except PErr (List Char × List String))
    (hstep : ∀ v i c v', step v i = .ok (c, v') → v ⊆ v') :
    ∀ (includes : List (List Char × String)) (acc : List Char × List String)
      (c : List Char) (v' : List String),
      substStep step acc includes = .ok (c, v') → acc.2 ⊆ v' := by
  intro includes
  induction includes with
  | nil =>
    intro acc c v' h
    simp only [substStep] at h
    cases h
    exact fun x hx => hx
  | cons p rest ih =>
    intro acc c v' h
    obtain ⟨pat, inc⟩ := p
    simp only [substStep] at h
    cases hs : step acc.2 inc with
    | error e =>
      rw [hs] at h
      exact absurd h (by simp)
    | ok r =>
      obtain ⟨repl, vmid⟩ := r
      rw [hs] at h
      dsimp only at h
      cases hr : pyReSub pat repl acc.1 with
      | none =>
        rw [hr] at h
        exact absurd h (by simp)
      | some nc =>
        rw [hr] at h
        exact fun x hx => ih _ _ _ h (hstep _ _ _ _ hs hx)

theorem processFuel_subset (fs : List (String × List Char)) :
    ∀ (fuel : Nat) (v : List String) (h : String) (c : List Char) (v' : List String),
      processFuel fs fuel v h = .ok (c, v') → v ⊆ v' := by
  intro fuel
  induction fuel with
  | zero =>
    intro v h c v' hp
    simp [processFuel] at hp
  | succ n ih =>
    intro v h c v' hp
    simp only [processFuel] at hp
    split at hp
    · cases hp
      exact fun x hx => hx
    · cases hc : fs.lookup h with
      | none =>
        rw [hc] at hp
        exact absurd hp (by simp)
      | some contents =>
        rw [hc] at hp
        dsimp only at hp
        have hsub := substStep_subset _ (fun v0 i c0 v0' hs => ih v0 i c0 v0' hs)
          _ _ _ _ hp
        exact fun x hx => hsub (List.mem_cons_of_mem _ hx)

theorem processFuel_mem_visited (fs : List (String × List Char)) :
    ∀ (fuel : Nat) (v : List String) (h : String) (c : List Char) (v' : List String),
      processFuel fs fuel v h = .ok (c, v') → h ∈ v' := by
  intro fuel
  cases fuel with
  | zero =>
    intro v h c v' hp
    simp [processFuel] at hp
  | succ n =>
    intro v h c v' hp
    simp only [processFuel] at hp
    split at hp
    next hmem =>
      cases hp
      exact hmem
    next =>
      cases hc : fs.lookup h with
      | none =>
        rw [hc] at hp
        exact absurd hp (by simp)
      | some contents =>
        rw [hc] at hp
        dsimp only at hp
        exact substStep_subset _
          (fun v0 i c0 v0' hs => processFuel_subset fs n v0 i c0 v0' hs)
          _ _ _ _ hp (List.mem_cons_self _ _)

theorem substStep_fuel_eq (fs : List (String × List Char)) (n : Nat)
    (IH : ∀ (v : List String) (h : String), numUnvisited fs v < n →
      processFuel fs n v h = processFuel fs (n + 1) v h) :
    ∀ (includes : List (List Char × String)) (acc : List Char × List String),
      numUnvisited fs acc.2 < n →
      substStep (fun v i => processFuel fs n v i) acc includes =
      substStep (fun v i => processFuel fs (n + 1) v i) acc includes := by
  intro includes
  induction includes with
  | nil => intro acc hlt; rfl
  | cons p rest ih =>
    intro acc hlt
    obtain ⟨pat, inc⟩ := p
    simp only [substStep]
    rw [← IH acc.2 inc hlt]
    cases hs : processFuel fs n acc.2 inc with
    | error e => rfl
    | ok r =>
      obtain ⟨repl, vmid⟩ := r
      dsimp only
      have hsub : acc.2 ⊆ vmid := processFuel_subset fs n _ _ _ _ hs
      cases hr : pyReSub pat repl acc.1 with
      | none => simp
      | some nc => exact ih _ (Nat.lt_of_le_of_lt (numUnvisited_mono hsub) hlt)

theorem processFuel_stable (fs : List (String × List Char)) :
    ∀ (n : Nat) (v : List String) (h : String), numUnvisited fs v < n →
      processFuel fs n v h = processFuel fs (n + 1) v h := by
  intro n
  induction n with
  | zero => intro v h hlt; omega
  | succ n ih =>
    intro v h hlt
    show processFuel fs (n + 1) v h = processFuel fs (n + 1 + 1) v h
    simp only [processFuel]
    split
    · rfl
    next hmem =>
      cases hc : fs.lookup h with
      | none => rfl
      | some contents =>
        apply substStep_fuel_eq fs n ih
        have hk : h ∈ headerKeys fs := lookup_mem_keys _ _ _ hc
        have hstrict := numUnvisited_strict hk hmem
        simp only
        omega

theorem processFuel_add (fs : List (String × List Char)) :
    ∀ (k n : Nat) (v : List String) (h : String), numUnvisited fs v < n →
      processFuel fs n v h = processFuel fs (n + k) v h := by
  intro k
  induction k with
  | zero => intro n v h hlt; rfl
  | succ m ih =>
    intro n v h hlt
    have e : n + (m + 1) = (n + m) + 1 := by omega
    rw [e, ← processFuel_stable fs (n + m) v h (by omega), ih n v h hlt]

theorem processFuel_congr (fs : List (String × List Char)) {n1 n2 : Nat}
    {v : List String} {h : String}
    (h1 : numUnvisited fs v < n1) (h2 : numUnvisited fs v < n2) :
    processFuel fs n1 v h = processFuel fs n2 v h := by
  rcases Nat.le_total n1 n2 with hle | hle
  · have e : n2 = n1 + (n2 - n1) := by omega
    rw [e, ← processFuel_add fs (n2 - n1) n1 v h h1]
  · have e : n1 = n2 + (n1 - n2) := by omega
    rw [e, ← processFuel_add fs (n1 - n2) n2 v h h2]

theorem substStep_ne_fuelOut (fs : List (String × List Char)) (n : Nat)
    (IH : ∀ (v : List String) (h : String), numUnvisited fs v < n →
      processFuel fs n v h ≠ .error .fuelOut) :
    ∀ (includes : List (List Char × String)) (acc : List Char × List String),
      numUnvisited fs acc.2 < n →
      substStep (fun v i => processFuel fs n v i) acc includes ≠ .error .fuelOut := by
  intro includes
  induction includes with
  | nil => intro acc hlt; simp [substStep]
  | cons p rest ih =>
    intro acc hlt
    obtain ⟨pat, inc⟩ := p
    simp only [substStep]
    cases hs : processFuel fs n acc.2 inc with
    | error e =>
      intro heq
      cases heq
      exact IH acc.2 inc hlt hs
    | ok r =>
      obtain ⟨repl, vmid⟩ := r
      dsimp only
      have hsub : acc.2 ⊆ vmid := processFuel_subset fs n _ _ _ _ hs
      cases hr : pyReSub pat repl acc.1 with
      | none => simp
      | some nc => exact ih _ (Nat.lt_of_le_of_lt (numUnvisited_mono hsub) hlt)

theorem processFuel_ne_fuelOut (fs : List (String × List Char)) :
    ∀ (n : Nat) (v : List String) (h : String), numUnvisited fs v < n →
      processFuel fs n v h ≠ .error .fuelOut := by
  intro n
  induction n with
  | zero => intro v h hlt; omega
  | succ n ih =>
    intro v h hlt
    simp only [processFuel]
    split
    · simp
    next hmem =>
      cases hc : fs.lookup h with
      | none => simp
      | some contents =>
        apply substStep_ne_fuelOut fs n ih
        have hk : h ∈ headerKeys fs := lookup_mem_keys _ _ _ hc
        have hstrict := numUnvisited_strict hk hmem
        simp only
        omega

/-! ## Lemmas: the modelled wire format round-trips -/

theorem encodeNatLE_length : ∀ (w v : Nat), (encodeNatLE w v).length = w := by
  intro w
  induction w with
  | zero => intro v; rfl
  | succ n ih => intro v; simp [encodeNatLE, ih]

theorem decodeNatLE_encodeNatLE : ∀ (w v : Nat), decodeNatLE (encodeNatLE w v) = v % 256 ^ w := by
  intro w
  induction w with
  | zero => intro v; simp [encodeNatLE, decodeNatLE, Nat.mod_one]
  | succ n ih =>
    intro v
    simp only [encodeNatLE, decodeNatLE, ih]
    rw [Nat.mod_mod_of_dvd v dvd_rfl]
    rw [show (256 : Nat) ^ (n + 1) = 256 * 256 ^ n from by rw [pow_succ, Nat.mul_comm]]
    exact (Nat.mod_mul).symm

theorem take_append_length {l1 l2 : List Nat} {w : Nat} (h : l1.length = w) :
    List.take w (l1 ++ l2) = l1 := by
  subst h
  exact List.take_left _ _

theorem drop_append_length {l1 l2 : List Nat} {w : Nat} (h : l1.length = w) :
    List.drop w (l1 ++ l2) = l2 := by
  subst h
  exact List.drop_left _ _

theorem readNatLE_encode (w v : Nat) (rest : List Nat) :
    readNatLE w (encodeNatLE w v ++ rest) = some (v % 256 ^ w, rest) := by
  have hlen : (encodeNatLE w v).length = w := encodeNatLE_length w v
  simp only [readNatLE, List.length_append, hlen]
  rw [if_pos (by omega)]
  rw [take_append_length hlen, drop_append_length hlen, decodeNatLE_encodeNatLE]

theorem readScalar_encode (x : Fin (2 ^ 32)) (rest : List Nat) :
    readScalar (encodeScalar x ++ rest) = some (x, rest) := by
  simp only [readScalar, encodeScalar, readNatLE_encode]
  have h1 : x.val % 256 ^ 4 = x.val := by
    rw [show (256 : Nat) ^ 4 = 2 ^ 32 from by norm_num]
    exact Nat.mod_eq_of_lt x.isLt
  congr 1
  refine Prod.ext ?_ rfl
  apply Fin.ext
  show x.val % 256 ^ 4 % 2 ^ 32 = x.val
  rw [h1, Nat.mod_eq_of_lt x.isLt]

theorem readVec3_encode (v : Vec3) (rest : List Nat) :
    readVec3 (encodeVec3 v ++ rest) = some (v, rest) := by
  simp only [encodeVec3, List.append_assoc]
  simp only [readVec3, readScalar_encode]

theorem readTriangle_encode (t : Triangle) (rest : List Nat) :
    readTriangle (encodeTriangle t ++ rest) = some (t, rest) := by
  simp only [encodeTriangle, List.append_assoc]
  simp only [readTriangle, readVec3_encode]

theorem readTriangles_encode :
    ∀ (ts : List Triangle) (rest : List Nat),
      readTriangles ts.length (encodeTriangles ts ++ rest) = some (ts, rest) := by
  intro ts
  induction ts with
  | nil => intro rest; simp [encodeTriangles, readTriangles]
  | cons t ts' ih =>
    intro rest
    simp only [encodeTriangles, List.length_cons, List.append_assoc]
    simp only [readTriangles, readTriangle_encode, ih]

theorem encodeTriangle_length (t : Triangle) : (encodeTriangle t).length = 36 := by
  simp [encodeTriangle, encodeVec3, encodeScalar, encodeNatLE_length]

theorem encodeTriangles_length :
    ∀ (ts : List Triangle), (encodeTriangles ts).length = 36 * ts.length := by
  intro ts
  induction ts with
  | nil => simp [encodeTriangles]
  | cons t ts' ih =>
    simp only [encodeTriangles, List.length_append, List.length_cons,
      encodeTriangle_length, ih]
    ring

theorem mkPolyhedron_no_reserve (elems : List Triangle) :
    mkPolyhedron elems none = some ⟨elems.length, elems⟩ := by
  simp [mkPolyhedron]

theorem mkPolyhedron_empty_reserve (C : Nat) :
    mkPolyhedron [] (some C) = some ⟨C, List.replicate C zeroTriangle⟩ := by
  simp [mkPolyhedron]

theorem getD_replicate_zeroTriangle :
    ∀ (n i : Nat), (List.replicate n zeroTriangle).getD i zeroTriangle = zeroTriangle := by
  intro n
  induction n with
  | zero => intro i; simp [List.getD]
  | succ m ih =>
    intro i
    cases i with
    | zero => simp [List.replicate]
    | succ j => simp only [List.replicate, List.getD_cons_succ]; exact ih j

/-! ## Lemmas: shape of the matched directives -/

theorem matchDirective_shape {cs : List Char} {m : List Char × List Char × List Char}
    (h : matchDirective cs = some m) : directiveShape m.1 m.2.1 := by
  unfold matchDirective at h
  split at h
  · exact absurd h (by simp)
  next afterInc h1 =>
    split at h
    next afterLt h2 =>
      split at h
      · exact absurd h (by simp)
      next hws =>
        split at h
        · exact absurd h (by simp)
        next afterNop h3 =>
          split at h
          next rest h4 =>
            split at h
            · exact absurd h (by simp)
            next hbody =>
              cases h
              refine ⟨afterInc.takeWhile isSpaceCh, afterNop.takeWhile (fun c => c != '>'),
                hws, ?_, hbody, ?_, rfl, rfl⟩
              · intro c hc
                exact List.mem_takeWhile_imp hc
              · intro c hc
                have hcb := List.mem_takeWhile_imp hc
                simpa using hcb
          next => exact absurd h (by simp)
    next => exact absurd h (by simp)

theorem lineMatches_shape :
    ∀ (cs : List Char) (m : List Char × List Char × List Char),
      m ∈ lineMatches cs → directiveShape m.1 m.2.1 := by
  intro cs
  induction cs with
  | nil => intro m h; simp [lineMatches] at h
  | cons c cs' ih =>
    intro m h
    simp only [lineMatches] at h
    split at h
    · simp at h
    · split at h
      next m0 hm0 =>
        rcases List.mem_cons.mp h with h' | h'
        · subst h'; exact matchDirective_shape hm0
        · exact ih m h'
      next => exact ih m h

theorem findMatchesGo_shape :
    ∀ (fuel : Nat) (cs : List Char) (g : List Char × List Char),
      g ∈ findMatchesGo fuel cs → directiveShape g.1 g.2 := by
  intro fuel
  induction fuel with
  | zero => intro cs g h; simp [findMatchesGo] at h
  | succ n ih =>
    intro cs g h
    rw [findMatchesGo_succ] at h
    cases hm : (lineMatches cs).getLast? with
    | some m =>
      rw [hm] at h
      rcases List.mem_cons.mp h with h' | h'
      · subst h'
        exact lineMatches_shape cs m (List.mem_of_mem_getLast? (by simp [hm]))
      · exact ih _ _ h'
    | none =>
      rw [hm] at h
      dsimp only at h
      cases cs with
      | nil => simp at h
      | cons c cs' => exact ih _ _ h

/-! ## The claims about scripts/aggregate.py -/

/-- C1 (amended): the first `process` call on a header path adds it to the
visited set, and every call on an already-visited path returns the empty
string with the visited set unchanged — so each header is processed at
most once.  (The further conclusion of the original claim, that no
header's contents can appear twice in the aggregate output, fails; see
`C1_counterexample`.) -/
theorem C1_process_visits_once (fs : List (String × List Char)) (visited : List String)
    (header : String) :
    (header ∈ visited → process fs visited header = .ok ([], visited)) ∧
    (∀ out v', process fs visited header = .ok (out, v') →
      header ∈ v' ∧ visited ⊆ v') := by
  constructor
  · intro hmem
    show processFuel fs (numUnvisited fs visited + 1) visited header = _
    simp only [processFuel]
    rw [if_pos hmem]
  · intro out v' hp
    exact ⟨processFuel_mem_visited fs _ _ _ _ _ hp, processFuel_subset fs _ _ _ _ _ hp⟩

/-- C1 counterexample: when the identical project-local include directive
occurs on two lines of one header, the single `re.sub(..., 0)` call for
the first match replaces both textual occurrences with the included
header's full contents, so those contents (`BODY\n`) appear twice in the
aggregate output even though the second `process` call on `b.h` returned
the empty string.  This refutes the claim's conclusion that no header's
contents appear twice. -/
theorem C1_counterexample :
    aggregateHeader fsDup ["include/nop/top.h"] = .ok "BODY\n\nBODY\n\n".data ∧
    countOccur "BODY\n".data "BODY\n\nBODY\n\n".data = 2 := by
  exact ⟨rfl, rfl⟩

/-- C1 witness: on a concrete filesystem, a repeat call on a visited header
returns the empty string, and a first call marks the header visited. -/
theorem C1_witness :
    process fsDup ["include/nop/b.h"] "include/nop/b.h" = .ok ([], ["include/nop/b.h"]) ∧
    "include/nop/top.h" ∈ ["include/nop/b.h", "include/nop/top.h"] := by
  constructor
  · exact (C1_process_visits_once fsDup ["include/nop/b.h"] "include/nop/b.h").1
      (by decide)
  · exact ((C1_process_visits_once fsDup [] "include/nop/top.h").2
      "BODY\n\nBODY\n\n".data ["include/nop/b.h", "include/nop/top.h"] rfl).1

/-- C3: the visited-set-guarded recursion of `process` terminates on every
finite filesystem, include cycles included: with fuel exceeding the number
of distinct not-yet-visited headers (a bound on the recursion depth), the
fuelled recursion never exhausts its fuel, and the top-level `process`
never reports fuel exhaustion. -/
theorem C3_process_terminates (fs : List (String × List Char)) (visited : List String)
    (header : String) (fuel : Nat) (hfuel : numUnvisited fs visited < fuel) :
    processFuel fs fuel visited header ≠ .error .fuelOut ∧
    process fs visited header ≠ .error .fuelOut := by
  constructor
  · exact processFuel_ne_fuelOut fs fuel visited header hfuel
  · exact processFuel_ne_fuelOut fs _ visited header (Nat.lt_succ_self _)

/-- C3 witness: on a concrete two-header filesystem whose includes form a
cycle, `process` runs to completion within the fuel bound. -/
theorem C3_witness :
    numUnvisited fsCyc [] < 3 ∧
    processFuel fsCyc 3 [] "include/nop/a.h" ≠ .error .fuelOut := by
  exact ⟨by decide, (C3_process_terminates fsCyc [] "include/nop/a.h" 3 (by decide)).1⟩

theorem substStep_process_congr (fs : List (String × List Char)) (n : Nat) :
    ∀ (includes : List (List Char × String)) (acc : List Char × List String),
      numUnvisited fs acc.2 < n →
      substStep (fun v i => processFuel fs n v i) acc includes =
      substStep (fun v i => process fs v i) acc includes := by
  intro includes
  induction includes with
  | nil => intro acc hlt; rfl
  | cons p rest ih =>
    intro acc hlt
    obtain ⟨pat, inc⟩ := p
    simp only [substStep]
    have hstep : processFuel fs n acc.2 inc = process fs acc.2 inc :=
      processFuel_congr fs hlt (Nat.lt_succ_self _)
    rw [hstep]
    cases hs : process fs acc.2 inc with
    | error e => rfl
    | ok r =>
      obtain ⟨repl, vmid⟩ := r
      dsimp only
      have hsub : acc.2 ⊆ vmid := processFuel_subset fs _ _ _ _ _ hs
      cases hr : pyReSub pat repl acc.1 with
      | none => simp
      | some nc => exact ih _ (Nat.lt_of_le_of_lt (numUnvisited_mono hsub) hlt)

/-- C2 (amended): on a first visit of a header, the text substituted in place
of each matched `#include <nop/...>` directive, in scan order, is the
result of `re.sub`'s replacement handling (`pyReSub`, which applies
Python's replacement-template processing) to the text produced by
recursively running `process` on the included header at that point — the
include is fully processed (depth-first, with the threaded visited state)
before the substitution.  The spliced text coincides character for
character with the recursively processed contents exactly in the
backslash-free case, stated by the second conjunct.  (The original
unconditional character-for-character claim fails; see
`C2_counterexample`.) -/
theorem C2_process_recursion (fs : List (String × List Char)) (visited : List String)
    (header : String) (contents : List Char)
    (h1 : header ∉ visited) (h2 : fs.lookup header = some contents) :
    (process fs visited header =
      substStep (fun v i => process fs v i) (contents, header :: visited)
        (includesOf contents)) ∧
    (∀ pat repl s : List Char, repl.contains '\\' = false →
      pyReSub pat repl s = some (replaceAll pat repl s)) := by
  constructor
  · show processFuel fs (numUnvisited fs visited + 1) visited header = _
    simp only [processFuel]
    rw [if_neg h1, h2]
    dsimp only
    apply substStep_process_congr
    have hk : header ∈ headerKeys fs := lookup_mem_keys _ _ _ h2
    exact numUnvisited_strict hk h1
  · intro pat repl s hb
    simp only [pyReSub]
    rw [hb]
    simp

/-- C2 counterexample: the program does not splice the recursively processed
include contents character for character.  With `fsTmpl`, the processed
contents of `esc.h` are the five characters `X`, backslash, `n`, `Y`,
newline; but `re.sub` treats the replacement as a template, so the
backslash-`n` pair is converted to a single newline and the text spliced
into `top.h` is `X`, newline, `Y`, newline — the processed contents appear
nowhere in the output.  With `fsBad`, the processed contents of `ref.h`
contain `\1`, and the substitution raises `invalid group reference`
instead of splicing anything, so `process` fails. -/
theorem C2_counterexample :
    process fsTmpl [] "include/nop/esc.h" =
      .ok ("X\\nY\n".data, ["include/nop/esc.h"]) ∧
    process fsTmpl [] "include/nop/top.h" =
      .ok ("X\nY\n\n".data, ["include/nop/esc.h", "include/nop/top.h"]) ∧
    countOccur "X\\nY".data "X\nY\n\n".data = 0 ∧
    process fsBad [] "include/nop/top2.h" = .error .reError := by
  exact ⟨rfl, rfl, rfl, rfl⟩

/-- C2 witness: on a concrete two-header chain, the first visit of `a.h`
equals the substitution fold whose replacement text comes from recursively
processing `b.h`. -/
theorem C2_witness :
    ("include/nop/a.h" ∉ ([] : List String)) ∧
    process fsChain [] "include/nop/a.h" =
      substStep (fun v i => process fsChain v i)
        ("A1\n#include <nop/b.h>\nA2\n".data, ["include/nop/a.h"])
        (includesOf "A1\n#include <nop/b.h>\nA2\n".data) := by
  exact ⟨by decide,
    (C2_process_recursion fsChain [] "include/nop/a.h"
      "A1\n#include <nop/b.h>\nA2\n".data (by decide) rfl).1⟩

/-- C7 (amended): only the directives matched by the project-local pattern
trigger rewriting — every match of `reInclude` has the shape
`#include` + whitespace + `<nop/...>` (so a directive such as
`#include <vector>` is never matched), and a header containing no match at
all passes into the aggregate completely unchanged.  (The original claim's
stronger conclusion, that in every processed header all text outside the
matched directives appears verbatim in the aggregate, fails: each
substitution textually replaces every occurrence of the matched directive
in the evolving contents, so non-matched text that comes to form part of
such an occurrence is rewritten too; see `C7_counterexample`.) -/
theorem C7_frame (fs : List (String × List Char)) (visited : List String)
    (header : String) (contents : List Char)
    (h1 : header ∉ visited) (h2 : fs.lookup header = some contents) :
    (∀ g ∈ findMatches contents, directiveShape g.1 g.2) ∧
    (findMatches contents = [] →
      process fs visited header = .ok (contents, header :: visited)) := by
  constructor
  · intro g hg
    exact findMatchesGo_shape _ _ _ hg
  · intro hnone
    show processFuel fs (numUnvisited fs visited + 1) visited header = _
    simp only [processFuel]
    rw [if_neg h1, h2]
    dsimp only
    rw [show includesOf contents = [] from by simp [includesOf, hnone]]
    rfl

/-- C7 counterexample: non-matched text does not always pass into the output
unchanged.  In `fsFrame` the top header's matches are exactly the two
directives for `a.h` (line 1, ending before the text `<nop/b.h> tail`) and
`b.h` (line 2), so the line-1 text `<nop/b.h> tail` is outside every
match; it occurs once in the source header.  Processing first replaces the
`a.h` directive by `a.h`'s contents `#include` + space, which makes the
line-1 remainder read `#include <nop/b.h> tail`; the subsequent replace-all
for the `b.h` directive then consumes that newly formed occurrence, so the
non-matched text `<nop/b.h> tail` appears nowhere in the aggregate
output. -/
theorem C7_counterexample :
    findMatches "#include <nop/a.h><nop/b.h> tail\n#include <nop/b.h>\n".data =
      [("#include <nop/a.h>".data, "nop/a.h".data),
       ("#include <nop/b.h>".data, "nop/b.h".data)] ∧
    countOccur "<nop/b.h> tail".data
      "#include <nop/a.h><nop/b.h> tail\n#include <nop/b.h>\n".data = 1 ∧
    process fsFrame [] "include/nop/top3.h" =
      .ok ("BB\n tail\nBB\n\n".data,
        ["include/nop/b.h", "include/nop/a.h", "include/nop/top3.h"]) ∧
    countOccur "<nop/b.h> tail".data "BB\n tail\nBB\n\n".data = 0 := by
  exact ⟨rfl, rfl, rfl, rfl⟩

/-- C7 witness: a concrete header whose only include directive is
`#include <vector>` has no `reInclude` match and passes through `process`
verbatim. -/
theorem C7_witness :
    findMatches "#include <vector>\nint x;\n".data = [] ∧
    process fsStd [] "include/nop/std.h" =
      .ok ("#include <vector>\nint x;\n".data, ["include/nop/std.h"]) := by
  exact ⟨rfl,
    (C7_frame fsStd [] "include/nop/std.h" "#include <vector>\nint x;\n".data
      (by decide) rfl).2 rfl⟩

/-! ## The claims about examples/shared.py -/

/-- C4: round-trip with dynamic extent (spec-modelled codec): for every count
`n ≤ C`, serializing a `Polyhedron` built from `n` triangles and then
deserializing the produced bytes (possibly followed by trailing buffer
junk) into a freshly reserved destination of capacity `C` reproduces the
same `n` elements in the same order, and the deserialize call reports
exactly the byte count the serialize call reported. -/
theorem C4_round_trip (n C bufLen : Nat) (elems : List Triangle) (extra : List Nat)
    (src dest : Polyhedron)
    (hn : elems.length = n) (hnC : n ≤ C) (h64 : n < 2 ^ 64)
    (hbuf : 8 + 36 * n ≤ bufLen)
    (hsrc : mkPolyhedron elems none = some src)
    (hdest : mkPolyhedron [] (some C) = some dest) :
    ∃ (bytes : List Nat) (out : Polyhedron),
      serializePolyhedron src bufLen = .ok bytes ∧
      bytes.length = 8 + 36 * n ∧
      deserializePolyhedron dest (bytes ++ extra) = .ok (out, bytes.length) ∧
      out.size = n ∧
      out.triangles.take n = elems := by
  subst hn
  have hsrc' : src = ⟨elems.length, elems⟩ := by
    rw [mkPolyhedron_no_reserve] at hsrc
    exact (Option.some.inj hsrc).symm
  have hdest' : dest = ⟨C, List.replicate C zeroTriangle⟩ := by
    rw [mkPolyhedron_empty_reserve] at hdest
    exact (Option.some.inj hdest).symm
  subst hsrc'
  subst hdest'
  have hpay : polyPayload ⟨elems.length, elems⟩ =
      encodeNatLE 8 elems.length ++ encodeTriangles elems := by
    simp [polyPayload, List.take_length]
  have hlen : (polyPayload ⟨elems.length, elems⟩).length = 8 + 36 * elems.length := by
    rw [hpay]
    simp [encodeNatLE_length, encodeTriangles_length]
  refine ⟨polyPayload ⟨elems.length, elems⟩,
    ⟨elems.length, elems ++ (List.replicate C zeroTriangle).drop elems.length⟩,
    ?_, hlen, ?_, rfl, List.take_left _ _⟩
  · simp only [serializePolyhedron]
    rw [if_pos (by omega)]
  · simp only [deserializePolyhedron]
    rw [hpay, List.append_assoc, readNatLE_encode]
    have hmod : elems.length % 256 ^ 8 = elems.length := by
      rw [show (256 : Nat) ^ 8 = 2 ^ 64 from by norm_num]
      exact Nat.mod_eq_of_lt h64
    rw [hmod]
    dsimp only
    rw [if_pos (by simp only [List.length_replicate]; omega)]
    rw [readTriangles_encode]
    dsimp only
    congr 1
    refine Prod.ext rfl ?_
    simp only [List.length_append, encodeNatLE_length, encodeTriangles_length]
    omega

/-- C4 witness: a one-triangle polyhedron serialized into a 1024-byte buffer
round-trips through a capacity-2 destination, reporting 44 bytes both
ways. -/
theorem C4_witness :
    (1 : Nat) ≤ 2 ∧
    (∃ (bytes : List Nat) (out : Polyhedron),
      serializePolyhedron ⟨1, [triEx]⟩ 1024 = .ok bytes ∧
      bytes.length = 8 + 36 * 1 ∧
      deserializePolyhedron ⟨2, List.replicate 2 zeroTriangle⟩ (bytes ++ [9]) =
        .ok (out, bytes.length) ∧
      out.size = 1 ∧
      out.triangles.take 1 = [triEx]) := by
  refine ⟨by norm_num, ?_⟩
  exact C4_round_trip 1 2 1024 [triEx] [9] ⟨1, [triEx]⟩
    ⟨2, List.replicate 2 zeroTriangle⟩ rfl (by norm_num) (by norm_num) (by norm_num)
    rfl rfl

/-- C5: every `Polyhedron` the constructor returns satisfies the Dynamic
Composite invariant: its `size` field never exceeds the length of its
backing `triangles` array, for every elements list and every reserve
argument (explicit or defaulted) with which construction succeeds. -/
theorem C5_count_le_capacity (elements : List Triangle) (reserve : Option Nat)
    (p : Polyhedron) (h : mkPolyhedron elements reserve = some p) :
    p.size ≤ p.triangles.length := by
  simp only [mkPolyhedron] at h
  split at h
  next hle =>
    have hp : p = ⟨reserve.getD elements.length,
        elements ++ List.replicate (reserve.getD elements.length - elements.length)
          zeroTriangle⟩ := (Option.some.inj h).symm
    subst hp
    simp only [List.length_append, List.length_replicate]
    omega
  next => exact absurd h (by simp)

/-- C5 witness: the invariant holds for a concretely constructed value. -/
theorem C5_witness :
    mkPolyhedron [triEx] none = some ⟨1, [triEx]⟩ ∧
    (Polyhedron.mk 1 [triEx]).size ≤ (Polyhedron.mk 1 [triEx]).triangles.length := by
  exact ⟨rfl, C5_count_le_capacity [triEx] none ⟨1, [triEx]⟩ rfl⟩

/-- C6: for every explicit reserve value smaller than the number of supplied
elements, the constructor fails (ctypes raises before any instance is
produced), so no `Polyhedron` is ever created whose initialized element run
overflows its backing storage. -/
theorem C6_overflow_rejected (elements : List Triangle) (r : Nat)
    (h : r < elements.length) :
    mkPolyhedron elements (some r) = none := by
  simp only [mkPolyhedron, Option.getD_some]
  rw [if_neg (by omega)]

/-- C6 witness: reserving zero slots for a one-element list fails. -/
theorem C6_witness :
    (0 : Nat) < ([triEx] : List Triangle).length ∧
    mkPolyhedron [triEx] (some 0) = none := by
  exact ⟨by norm_num, C6_overflow_rejected [triEx] 0 (by norm_num)⟩

/-- C8: the three ABI entry points are all bound with the identical signed
byte-count return convention (`c_ssize_t`), and the client treats a return
value as success exactly when it is nonnegative, reading any negative
return as a hard failure identified by the magnitude `-count` of the
returned code. -/
theorem C8_abi_convention :
    (∀ b ∈ protocolBindings, b.restype = CType.c_ssize_t) ∧
    (∀ count : Int, clientSuccess count = true ↔ 0 ≤ count) ∧
    (∀ count : Int, count < 0 →
      clientSuccess count = false ∧ clientErrorCode count = |count| ∧
      0 < clientErrorCode count) := by
  refine ⟨?_, ?_, ?_⟩
  · intro b hb
    simp only [protocolBindings, List.mem_cons, List.not_mem_nil, or_false] at hb
    rcases hb with rfl | rfl | rfl
    · rfl
    · rfl
    · rfl
  · intro count
    simp [clientSuccess]
  · intro count hc
    refine ⟨?_, ?_, ?_⟩
    · simp only [clientSuccess, decide_eq_false_iff_not]
      omega
    · simp [clientErrorCode, abs_of_neg hc]
    · simp only [clientErrorCode]
      omega

/-- C8 witness: the serialize binding returns `c_ssize_t`, and a concrete
negative return is a failure whose magnitude is the error code. -/
theorem C8_witness :
    serializePolyhedronBinding.restype = CType.c_ssize_t ∧
    clientSuccess (-7) = false ∧ clientErrorCode (-7) = |(-7 : Int)| := by
  refine ⟨?_, ?_, ?_⟩
  · exact C8_abi_convention.1 serializePolyhedronBinding (by simp [protocolBindings])
  · exact (C8_abi_convention.2.2 (-7) (by norm_num)).1
  · exact (C8_abi_convention.2.2 (-7) (by norm_num)).2.1

/-- C9: the Fixed Composite shapes are fixed: `Vec3` has exactly the three
`c_float` fields `x`, `y`, `z` in that declared order and `Triangle`
exactly the three `Vec3` fields `a`, `b`, `c`; every value is fully
determined by those fields (so no operation can change a value's field
count or order), and the modelled codec walks the fields in exactly the
declared order. -/
theorem C9_fixed_shape :
    Vec3Fields = [("x", CType.c_float), ("y", CType.c_float), ("z", CType.c_float)] ∧
    Vec3Fields.length = 3 ∧
    TriangleFields = [("a", CType.vec3), ("b", CType.vec3), ("c", CType.vec3)] ∧
    TriangleFields.length = 3 ∧
    (∀ v : Vec3, v = ⟨v.x, v.y, v.z⟩) ∧
    (∀ t : Triangle, t = ⟨t.a, t.b, t.c⟩) ∧
    (∀ v : Vec3, encodeVec3 v = encodeScalar v.x ++ encodeScalar v.y ++ encodeScalar v.z) ∧
    (∀ t : Triangle, encodeTriangle t = encodeVec3 t.a ++ encodeVec3 t.b ++ encodeVec3 t.c) :=
  ⟨rfl, rfl, rfl, rfl, fun _ => rfl, fun _ => rfl, fun _ => rfl, fun _ => rfl⟩

/-- C10: reserving capacity `N` with no elements yields a `Polyhedron` whose
`size` field equals `N` (the reserve value), not `0`: the constructor
always sets `size` to the reserve, so the fresh destination reports `N`
default-initialized elements. -/
theorem C10_reserve_sets_size (N : Nat) (h : 0 < N) :
    ∃ p : Polyhedron, mkPolyhedron [] (some N) = some p ∧
      p.size = N ∧ p.size ≠ 0 ∧ p.triangles.length = N ∧
      polyElements p = List.replicate N zeroTriangle := by
  refine ⟨⟨N, List.replicate N zeroTriangle⟩, mkPolyhedron_empty_reserve N, rfl,
    ?_, by simp, ?_⟩
  · show N ≠ 0
    omega
  simp only [polyElements, getD_replicate_zeroTriangle]
  rw [List.map_const', List.length_range]

/-- C10 witness: reserving ten slots yields `size = 10`, matching the
example's destination polyhedron. -/
theorem C10_witness :
    (0 : Nat) < 10 ∧
    (∃ p : Polyhedron, mkPolyhedron [] (some 10) = some p ∧
      p.size = 10 ∧ p.size ≠ 0 ∧ p.triangles.length = 10 ∧
      polyElements p = List.replicate 10 zeroTriangle) :=
  ⟨by norm_num, C10_reserve_sets_size 10 (by norm_num)⟩
